import Mathlib

/-!
Formal model of the opening-mistake detection engine of the chess-analyzer
application (`utils/analysis.py`, `utils/stockfish.py`, `app.py`, `config.py`).

The chess rules engine (python-chess) and the position evaluation oracle
(Stockfish) are external collaborators; they enter the model as parameters
(`ChessApi`, `Oracle`).  Everything else — pair collection, the two
evaluation caches, the mistake classifier, the ranking sort and the
read/delete routes — is translated from the source.  Definitions come
first, all theorems follow.
-/

namespace ChessAnalyzer

/-! ## Configuration constants (`config.py`, default values) -/

/-- `OPENING_PLIES_LIMIT = int(os.environ.get("OPENING_PLIES_LIMIT", "20"))` -/
def OPENING_PLIES_LIMIT : Nat := 20

/-- `MISTAKE_THRESHOLD_CP = int(os.environ.get("MISTAKE_THRESHOLD_CP", "100"))` -/
def MISTAKE_THRESHOLD_CP : Int := 100

/-- `TOP_MOVE_THRESHOLD_CP = int(os.environ.get("TOP_MOVE_THRESHOLD_CP", "30"))` -/
def TOP_MOVE_THRESHOLD_CP : Int := 30

/-- `MIN_PAIR_OCCURRENCES = int(os.environ.get("MIN_PAIR_OCCURRENCES", "2"))` -/
def MIN_PAIR_OCCURRENCES : Nat := 2

/-! ## Insertion-ordered dictionaries

Python dicts are insertion ordered; we model them as association lists.
`d[k] = v` replaces in place when the key is present and appends otherwise,
`d.setdefault(k, v)` appends only when the key is absent. -/

section DictDefs

variable {κ β : Type} [DecidableEq κ]

/-- Python `d.get(k)`. -/
def dget : List (κ × β) → κ → Option β
  | [], _ => none
  | e :: rest, k => if k = e.1 then some e.2 else dget rest k

/-- Python `d[k] = v`. -/
def dset : List (κ × β) → κ → β → List (κ × β)
  | [], k, v => [(k, v)]
  | e :: rest, k, v => if k = e.1 then (e.1, v) :: rest else e :: dset rest k v

/-- Python `d.setdefault(k, v)`. -/
def dsetdefault : List (κ × β) → κ → β → List (κ × β)
  | [], k, v => [(k, v)]
  | e :: rest, k, v => if k = e.1 then e :: rest else e :: dsetdefault rest k v

end DictDefs

/-! ## Stable descending sort

`list.sort(key=..., reverse=True)` in Python is a stable sort: the result is
descending in the key, and elements with equal keys keep their original
relative order.  We model it by insertion sort, inserting each element after
every already-placed element whose key is not strictly smaller. -/

section SortDefs

variable {α κ : Type} (kLt : κ → κ → Bool) (key : α → κ)

/-- Insert `x` into a descending-sorted list, after all equal keys. -/
def insertDesc (x : α) : List α → List α
  | [] => [x]
  | y :: ys => if kLt (key y) (key x) then x :: y :: ys else y :: insertDesc x ys

/-- Stable descending sort by `key` (Python `sort(key=..., reverse=True)`). -/
def sortDesc (l : List α) : List α :=
  l.foldl (fun acc x => insertDesc kLt key x acc) []

/-- Descending-sortedness: no earlier element has a strictly smaller key. -/
def SortedDesc (l : List α) : Prop :=
  l.Pairwise (fun a b => kLt (key a) (key b) = false)

end SortDefs

/-- Strict order on candidate sort keys (`key=lambda item: item[1]`). -/
def natLt (a b : Nat) : Bool := decide (a < b)

/-- Strict lexicographic order on mistake sort keys
(`key=lambda item: (item["pair_count"], item["avg_cp_loss"])`). -/
def pcLt (p q : Nat × Int) : Bool :=
  decide (p.1 < q.1) || (decide (p.1 = q.1) && decide (p.2 < q.2))

/-! ## Collaborator interfaces

The chess rules engine and the evaluation oracle are external.  `B` is the
board type, `M` a move, `K` a position key (`position_key(board)`), `F` a
full FEN string (`board.fen()`), `U` a UCI move string. -/

/-- The operations of the python-chess collaborator used by the source. -/
structure ChessApi (B M K F U : Type) where
  /-- `board.turn` (`true` = White). -/
  turn : B → Bool
  /-- `board.push(move)` (returning the updated board). -/
  push : B → M → B
  /-- `position_key(board)` from `utils/analysis.py`. -/
  posKey : B → K
  /-- `board.fen()`. -/
  fen : B → F
  /-- `move.uci()`. -/
  uci : M → U
  /-- `chess.Board(fen)`; `none` models the `ValueError` branch. -/
  parseFen : F → Option B
  /-- `chess.Move.from_uci(u)`; `none` models the `ValueError` branch. -/
  parseUci : U → Option M
  /-- `move in board.legal_moves`. -/
  legal : B → M → Bool

/-- One line of the oracle's reply: its principal variation and the
White-relative centipawn value produced by `score_to_cp` (mate already
collapsed to `MATE_SCORE_CP`; `none` models an unparseable score). -/
structure EngineInfo (M : Type) where
  pv : List M
  score : Option Int
deriving DecidableEq

/-- The evaluation oracle.  `Except.error` models `chess.engine.EngineError`
raised by `engine.analyse`.  A multi-line reply is a nonempty ordered list
(head = best line for the side to move), per the collaborator contract. -/
structure Oracle (B M : Type) where
  /-- `engine.analyse(board, depth_limit, multipv=MULTIPV)`. -/
  analyseMulti : B → Except Unit (EngineInfo M × List (EngineInfo M))
  /-- `engine.analyse(board_after, depth_limit)`, already passed through
  `score_to_cp`. -/
  analyseSingle : B → Except Unit (Option Int)

/-- The record appended to `mistakes` in `analyze_pgn` (`color` is the
analysed side, `true` = white). -/
structure MistakeRecord (F U : Type) where
  fen : F
  user_move : U
  top_moves : List U
  avg_cp_loss : Int
  pair_count : Nat
  color : Bool
deriving DecidableEq

section EngineDefs

variable {B M K F U E : Type} [DecidableEq K] [DecidableEq U]

/-! ## Pair Extractor (`collect_move_pairs`) -/

/-- The per-run state of `collect_move_pairs`: the `pair_counts` and
`pair_fens` dicts. -/
structure CollectState (K F U : Type) where
  pair_counts : List ((K × U) × Nat)
  pair_fens : List ((K × U) × F)

/-- The inner loop of `collect_move_pairs` over one game: enumerate the
mainline moves; break once `ply_index` reaches `OPENING_PLIES_LIMIT`; on the
target side's turn count the (position-key, uci) pair and record its first
FEN, then push; on the other side's turn just push. -/
def collectGame (api : ChessApi B M K F U) (target : Bool) :
    Nat → B → List M → CollectState K F U → CollectState K F U
  | _, _, [], st => st
  | i, b, m :: ms, st =>
    if OPENING_PLIES_LIMIT ≤ i then st
    else if api.turn b ≠ target then
      collectGame api target (i + 1) (api.push b m) ms st
    else
      let kk : K × U := (api.posKey b, api.uci m)
      collectGame api target (i + 1) (api.push b m) ms
        ⟨dset st.pair_counts kk ((dget st.pair_counts kk).getD 0 + 1),
         dsetdefault st.pair_fens kk (api.fen b)⟩

/-- `collect_move_pairs(paths, color)`.  A game is its initial board
(`game.board()`, honouring a FEN header) and its mainline moves; unreadable
files/games are skipped before this point and carry no information. -/
def collect_move_pairs (api : ChessApi B M K F U) (target : Bool)
    (games : List (B × List M)) : CollectState K F U :=
  games.foldl (fun st g => collectGame api target 0 g.1 g.2 st) ⟨[], []⟩

/-! ### Reference semantics of the traversal

`gameTrace` replays every mainline move and pairs each ply index with the
board it was played from; `targetObs` keeps the observations the extractor
is specified to count: plies below the opening limit, on the target side's
turn.  The pair-extractor theorems relate `collect_move_pairs` to this
trace. -/

/-- `(ply_index, board-before-move, move)` for every mainline ply, starting
at index `i`. -/
def gameTrace (api : ChessApi B M K F U) : B → List M → Nat →
    List (Nat × B × M)
  | _, [], _ => []
  | b, m :: ms, i => (i, b, m) :: gameTrace api (api.push b m) ms (i + 1)

/-- The observations of one game starting at ply index `i`: the
`((position key, uci), fen)` of every target-turn ply below the limit. -/
def targetObsFrom (api : ChessApi B M K F U) (target : Bool) (b : B)
    (ms : List M) (i : Nat) : List ((K × U) × F) :=
  (gameTrace api b ms i).filterMap (fun t =>
    if t.1 < OPENING_PLIES_LIMIT ∧ api.turn t.2.1 = target then
      some ((api.posKey t.2.1, api.uci t.2.2), api.fen t.2.1)
    else none)

/-- The observations of one whole game. -/
def targetObs (api : ChessApi B M K F U) (target : Bool) (g : B × List M) :
    List ((K × U) × F) :=
  targetObsFrom api target g.1 g.2 0

/-- Fold one observation into the extractor state: bump the pair count and
record the first FEN. -/
def applyObs (st : CollectState K F U) (o : (K × U) × F) :
    CollectState K F U :=
  ⟨dset st.pair_counts o.1 ((dget st.pair_counts o.1).getD 0 + 1),
   dsetdefault st.pair_fens o.1 o.2⟩

/-! ## Candidate Selector -/

/-- `candidates = [...] if count >= MIN_PAIR_OCCURRENCES` followed by
`candidates.sort(key=lambda item: item[1], reverse=True)`. -/
def candidatesOf (pair_counts : List ((K × U) × Nat)) :
    List ((K × U) × Nat) :=
  sortDesc natLt (fun c => c.2)
    (pair_counts.filter (fun c => MIN_PAIR_OCCURRENCES ≤ c.2))

/-! ## Evaluation Cache and Mistake Classifier (`analyze_pgn` main loop) -/

/-- The mutable state of the `analyze_pgn` loop.  `multiQueries` and
`singleQueries` record the positions sent to the oracle, in order; the
source issues exactly one engine call per element. -/
structure AState (K F U : Type) where
  position_cache : List (K × (Option Int × List U))
  after_cache : List (K × Option Int)
  mistakes : List (MistakeRecord F U)
  multiQueries : List K
  singleQueries : List K

/-- The initial loop state (empty caches, no mistakes). -/
def initAState : AState K F U := ⟨[], [], [], [], []⟩

/-- `cp_loss = (best_score - score_after) if mover_is_white else
(score_after - best_score)` (line 190 of `utils/analysis.py`). -/
def cp_loss (mover_is_white : Bool) (best_score score_after : Int) : Int :=
  if mover_is_white then best_score - score_after
  else score_after - best_score

/-- The body of the position-cache miss: query the oracle with `multipv`,
take `best_score` from the first line, and collect `top_moves` from the
lines whose score is within `TOP_MOVE_THRESHOLD_CP` of `best_score` (the
comparison `best_score - mv_score <= TOP_MOVE_THRESHOLD_CP` is applied to
White-relative scores whichever side is to move). -/
def computeBestEntry (api : ChessApi B M K F U) (oracle : Oracle B M)
    (board : B) : Option Int × List U :=
  match oracle.analyseMulti board with
  | .error _ => (none, [])
  | .ok (info0, rest) =>
    match info0.score with
    | none => (none, [])
    | some best_score =>
      (some best_score,
       (info0 :: rest).filterMap (fun info =>
         match info.pv with
         | [] => none
         | mv :: _ =>
           match info.score with
           | none => none
           | some mv_score =>
             if best_score - mv_score ≤ TOP_MOVE_THRESHOLD_CP then
               some (api.uci mv)
             else none))

/-- `if pos_key not in position_cache: position_cache[pos_key] = ...`
followed by `best_score, top_moves = position_cache[pos_key]`: on a miss
query the oracle and store the entry; either way return the cached entry
(the spec's `bestLineFor`). -/
def bestLineFor (api : ChessApi B M K F U) (oracle : Oracle B M) (board : B)
    (st : AState K F U) (pos_key : K) :
    AState K F U × (Option Int × List U) :=
  match dget st.position_cache pos_key with
  | some entry => (st, entry)
  | none =>
    let entry := computeBestEntry api oracle board
    ({ st with
       position_cache := dset st.position_cache pos_key entry,
       multiQueries := st.multiQueries ++ [pos_key] }, entry)

/-- `if after_key not in after_cache: after_cache[after_key] = ...` followed
by `score_after = after_cache.get(after_key)` (the spec's `scoreAfter`). -/
def scoreAfter (oracle : Oracle B M) (board_after : B)
    (st : AState K F U) (after_key : K) : AState K F U × Option Int :=
  match dget st.after_cache after_key with
  | some v => (st, v)
  | none =>
    let v : Option Int :=
      match oracle.analyseSingle board_after with
      | .error _ => none
      | .ok s => s
    ({ st with
       after_cache := dset st.after_cache after_key v,
       singleQueries := st.singleQueries ++ [after_key] }, v)

/-- One iteration of `for (pos_key, user_move), count in candidates:`.
The first component of `bestLineFor`/`scoreAfter` is the state after the
conditional cache insert, the second the entry the source then reads back
from the cache. -/
def processCandidate (api : ChessApi B M K F U) (oracle : Oracle B M)
    (color : Bool) (pair_fens : List ((K × U) × F))
    (st : AState K F U) (cand : (K × U) × Nat) : AState K F U :=
  match dget pair_fens cand.1 with
  | none => st
  | some fen =>
    match api.parseFen fen with
    | none => st
    | some board =>
      match (bestLineFor api oracle board st cand.1.1).2.1 with
      | none => (bestLineFor api oracle board st cand.1.1).1
      | some best_score =>
        match api.parseUci cand.1.2 with
        | none => (bestLineFor api oracle board st cand.1.1).1
        | some move_obj =>
          if api.legal board move_obj = false then
            (bestLineFor api oracle board st cand.1.1).1
          else if (bestLineFor api oracle board st cand.1.1).2.2 ≠ [] ∧
              cand.1.2 ∈ (bestLineFor api oracle board st cand.1.1).2.2 then
            (bestLineFor api oracle board st cand.1.1).1
          else
            match (scoreAfter oracle (api.push board move_obj)
                (bestLineFor api oracle board st cand.1.1).1
                (api.posKey (api.push board move_obj))).2 with
            | none =>
              (scoreAfter oracle (api.push board move_obj)
                (bestLineFor api oracle board st cand.1.1).1
                (api.posKey (api.push board move_obj))).1
            | some score_after =>
              if cp_loss (api.turn board) best_score score_after ≤
                  MISTAKE_THRESHOLD_CP then
                (scoreAfter oracle (api.push board move_obj)
                  (bestLineFor api oracle board st cand.1.1).1
                  (api.posKey (api.push board move_obj))).1
              else
                { (scoreAfter oracle (api.push board move_obj)
                    (bestLineFor api oracle board st cand.1.1).1
                    (api.posKey (api.push board move_obj))).1 with
                  mistakes :=
                    (scoreAfter oracle (api.push board move_obj)
                      (bestLineFor api oracle board st cand.1.1).1
                      (api.posKey (api.push board move_obj))).1.mistakes ++
                    [⟨fen, cand.1.2,
                      (bestLineFor api oracle board st cand.1.1).2.2,
                      cp_loss (api.turn board) best_score score_after,
                      cand.2, color⟩] }

/-- The final loop state of `analyze_pgn` over the selected candidates. -/
def analyzeLoop (api : ChessApi B M K F U) (oracle : Oracle B M)
    (color : Bool) (pair_fens : List ((K × U) × F))
    (cands : List ((K × U) × Nat)) : AState K F U :=
  cands.foldl (processCandidate api oracle color pair_fens) initAState

/-- The cache/query-log invariant of the loop state: the multi-line query
log is duplicate free and holds exactly the cached position keys. -/
def CacheInv (st : AState K F U) : Prop :=
  st.multiQueries.Nodup ∧
  ∀ k, (dget st.position_cache k).isSome ↔ k ∈ st.multiQueries

/-! ## Oracle startup (`start_stockfish`) -/

/-- The environment of `start_stockfish`: the candidate binary paths
(`stockfish_candidates()`), the result of `SimpleEngine.popen_uci` on each
(`none` models `OSError`/`EngineError`), and the display form of each path
(path resolution is a filesystem operation). -/
structure StartEnv (E : Type) where
  candidates : List String
  tryPopen : String → Option E
  display : String → String

/-- The `for candidate in candidates:` loop of `start_stockfish`. -/
def firstEngine (env : StartEnv E) : List String → Option (E × String)
  | [] => none
  | c :: rest =>
    match env.tryPopen c with
    | some e => some (e, c)
    | none => firstEngine env rest

/-- `start_stockfish()`: the first candidate that starts wins; when all
fail, raise `RuntimeError` with the "Unable to start Stockfish" message. -/
def start_stockfish (env : StartEnv E) : Except String (E × String) :=
  match firstEngine env env.candidates with
  | some r => .ok r
  | none =>
    .error ("Unable to start Stockfish. Tried: " ++
      String.intercalate ", " (env.candidates.map env.display) ++ ".")

/-! ## `analyze_pgn` and the background task -/

/-- The emitted (pre-sort) mistake list of one `analyze_pgn` run. -/
def analyzeEmitted (api : ChessApi B M K F U) (oracle : Oracle B M)
    (color : Bool) (games : List (B × List M)) : List (MistakeRecord F U) :=
  let cf := collect_move_pairs api color games
  (analyzeLoop api oracle color cf.pair_fens
    (candidatesOf cf.pair_counts)).mistakes

/-- The sort key of `mistakes.sort(key=lambda item: (item["pair_count"],
item["avg_cp_loss"]), reverse=True)`. -/
def recKey (r : MistakeRecord F U) : Nat × Int := (r.pair_count, r.avg_cp_loss)

/-- `analyze_pgn(paths, color)`.  `Except.error` is the `RuntimeError`
propagating out when the oracle cannot be started (only attempted when
there is at least one candidate). -/
def analyze_pgn (api : ChessApi B M K F U) (oracle : Oracle B M)
    (senv : StartEnv E) (color : Bool) (games : List (B × List M)) :
    Except String (List (MistakeRecord F U)) :=
  let cf := collect_move_pairs api color games
  let cands := candidatesOf cf.pair_counts
  if cands.isEmpty then .ok []
  else
    match start_stockfish senv with
    | .error msg => .error msg
    | .ok _ =>
      .ok (sortDesc pcLt recKey
        (analyzeLoop api oracle color cf.pair_fens cands).mistakes)

/-- The terminal run states of one background analysis run. -/
inductive RunState where
  | completed
  | failed
deriving DecidableEq

/-- The externally visible outcome of the background task of
`analyze_async`: what was written to the analysis file, what was written to
the error file, and whether the processing flag was cleared. -/
structure RunResult (F U : Type) where
  analysisWrite : Option (List (MistakeRecord F U))
  errorWrite : Option String
  flagCleared : Bool

/-- The `task()` body of `analyze_async`: on success atomically write the
mistakes to the analysis file; on an exception write `{"error": str(exc)}`
to the error file; in both cases remove the processing flag. -/
def analyze_async_task (outcome : Except String (List (MistakeRecord F U))) :
    RunResult F U :=
  match outcome with
  | .ok mistakes => ⟨some mistakes, none, true⟩
  | .error e => ⟨none, some e, true⟩

/-- A run failed exactly when a failure reason was captured. -/
def runStateOf (res : RunResult F U) : RunState :=
  if res.errorWrite.isSome then .failed else .completed

end EngineDefs

/-! ## Persistence routes (`app.py`) -/

/-- One entry of the persisted analysis JSON list, as `load_mistakes`
inspects it: a JSON object with an optional integer `avg_cp_loss` field, or
any non-object value. -/
inductive JEntry where
  | jdict (avg : Option Int)
  | other
deriving DecidableEq

/-- `isinstance(m, dict)`. -/
def JEntry.isDict : JEntry → Bool
  | .jdict _ => true
  | .other => false

/-- `m.get("avg_cp_loss", 0)` (only consulted on dict entries). -/
def JEntry.loss : JEntry → Int
  | .jdict (some v) => v
  | .jdict none => 0
  | .other => 0

/-- The parsed content of the analysis file: a JSON list or some other
JSON value. -/
inductive AnalysisData where
  | list (entries : List JEntry)
  | nonList
deriving DecidableEq

/-- The error-file / flag-file fallback of `load_mistakes` (reached when the
analysis file is absent or does not hold a JSON list).  The error file
content is `none` for a missing/falsy `error` field. -/
def loadFallback (errorContent : Option (Except Unit (Option String)))
    (flagExists : Bool) : List JEntry × Bool × Option String :=
  match errorContent with
  | some (.ok (some e)) => ([], false, some e)
  | some (.ok none) => ([], false, some "Analysis failed.")
  | some (.error _) => ([], false, some "Analysis failed.")
  | none => if flagExists then ([], true, none) else ([], false, none)

/-- `load_mistakes(color)` (app.py:625-651), as a function of the three
files' contents: the returned mistakes, the processing flag, and the error
message.  `analysisContent = none` models a missing file; `.error ()`
models `OSError`/`json.JSONDecodeError`. -/
def load_mistakes (analysisContent : Option (Except Unit AnalysisData))
    (errorContent : Option (Except Unit (Option String)))
    (flagExists : Bool) : List JEntry × Bool × Option String :=
  match analysisContent with
  | some (.ok (.list data)) =>
    (data.filter (fun m =>
       m.isDict && decide (MISTAKE_THRESHOLD_CP ≤ m.loss)), false, none)
  | some (.error _) => ([], false, some "Analysis output is corrupted.")
  | some (.ok .nonList) => loadFallback errorContent flagExists
  | none => loadFallback errorContent flagExists

/-- `delete_mistake(color, index)` (app.py:681-698), as a function of the
stored analysis file content (`none` = missing file, `.error ()` =
unreadable JSON) and the non-negative route index.  Returns the file
content after the request and the HTTP status. -/
def delete_mistake (stored : Option (Except Unit (List JEntry)))
    (index : Nat) : Option (Except Unit (List JEntry)) × Nat :=
  match stored with
  | none => (none, 404)
  | some (.error _) => (some (.error ()), 500)
  | some (.ok mistakes) =>
    if index < mistakes.length then
      (some (.ok (mistakes.take index ++ mistakes.drop (index + 1))), 204)
    else
      (some (.ok mistakes), 204)

/-! ## Concrete instantiations used to exercise the model

A toy chess API over `Nat`: boards, moves, keys, FENs and UCI strings are
all naturals, every FEN parses back to its board, every move is legal. -/

/-- A toy API for positions with White to move. -/
def wApi : ChessApi Nat Nat Nat Nat Nat :=
  ⟨fun _ => true, fun b m => b + m + 1, id, id, id, some, some,
   fun _ _ => true⟩

/-- A toy API for positions with Black to move. -/
def bApi : ChessApi Nat Nat Nat Nat Nat :=
  ⟨fun _ => false, fun b m => b + m + 1, id, id, id, some, some,
   fun _ _ => true⟩

/-- Oracle: best line (move 9, +50 for White); played-move follow-up −100. -/
def wOracle : Oracle Nat Nat :=
  ⟨fun _ => .ok (⟨[9], some 50⟩, []), fun _ => .ok (some (-100))⟩

/-- Oracle: best line (move 9, +50); played-move follow-up −50 (borderline:
the White loss is exactly the mistake threshold). -/
def wOracleEq : Oracle Nat Nat :=
  ⟨fun _ => .ok (⟨[9], some 50⟩, []), fun _ => .ok (some (-50))⟩

/-- Oracle for a Black-to-move position: best line (move 10, −50 i.e. +0.5
for Black), second line (move 20, +200 i.e. lost for Black). -/
def bOracle : Oracle Nat Nat :=
  ⟨fun _ => .ok (⟨[10], some (-50)⟩, [⟨[20], some 200⟩]),
   fun _ => .ok (some 0)⟩

/-- A start environment whose engine always starts. -/
def okSenv : StartEnv Nat := ⟨["stockfish"], fun _ => some 0, id⟩

/-- A start environment where every candidate binary fails to start. -/
def failSenv : StartEnv Nat := ⟨["stockfish"], fun _ => none, id⟩

/-- A one-move game from the toy start board `0`: White plays move `5`. -/
def wGame : Nat × List Nat := (0, [5])

/-- The `pair_fens` dict of a corpus of two copies of `wGame`. -/
def wFens : List ((Nat × Nat) × Nat) := [((0, 5), 0)]

/-- The candidate produced by that corpus (pair seen twice, plus one). -/
def wCand : (Nat × Nat) × Nat := ((0, 5), 3)

end ChessAnalyzer

namespace ChessAnalyzer

/-! # Theorems -/

/-! ## Dictionary lemmas -/

section DictLemmas

variable {κ β : Type} [DecidableEq κ]

theorem dget_dset (d : List (κ × β)) (k k' : κ) (v : β) :
    dget (dset d k v) k' = if k' = k then some v else dget d k' := by
  induction d with
  | nil =>
      by_cases h : k' = k <;> simp [dset, dget, h]
  | cons e rest ih =>
      by_cases h1 : k = e.1
      · by_cases h2 : k' = e.1
        · simp [dset, dget, h1, h2]
        · simp [dset, dget, h1, h2]
      · by_cases h2 : k' = e.1
        · have h3 : ¬ k' = k := fun h => h1 (h ▸ h2)
          have h4 : ¬ e.1 = k := fun h => h1 h.symm
          simp [dset, dget, h1, h2, h3, h4]
        · simp [dset, dget, h1, h2, ih]

theorem dget_dsetdefault (d : List (κ × β)) (k k' : κ) (v : β) :
    dget (dsetdefault d k v) k' =
      if k' = k then some ((dget d k).getD v) else dget d k' := by
  induction d with
  | nil =>
      by_cases h : k' = k <;> simp [dsetdefault, dget, h]
  | cons e rest ih =>
      by_cases h1 : k = e.1
      · by_cases h2 : k' = e.1
        · simp [dsetdefault, dget, h1, h2]
        · simp [dsetdefault, dget, h1, h2]
      · by_cases h2 : k' = e.1
        · have h3 : ¬ k' = k := fun h => h1 (h ▸ h2)
          have h4 : ¬ e.1 = k := fun h => h1 h.symm
          simp [dsetdefault, dget, h1, h2, h3, h4]
        · simp [dsetdefault, dget, h1, h2, ih]

end DictLemmas

/-! ## Sort lemmas -/

section SortLemmas

variable {α κ : Type} (kLt : κ → κ → Bool) (key : α → κ)

theorem mem_insertDesc {x a : α} {l : List α} :
    a ∈ insertDesc kLt key x l ↔ a = x ∨ a ∈ l := by
  induction l with
  | nil => simp [insertDesc]
  | cons y ys ih =>
      by_cases h : kLt (key y) (key x) = true <;>
        simp [insertDesc, h, ih] <;> tauto

theorem insertDesc_perm (x : α) (l : List α) :
    List.Perm (insertDesc kLt key x l) (x :: l) := by
  induction l with
  | nil => exact List.Perm.refl _
  | cons y ys ih =>
      by_cases h : kLt (key y) (key x) = true
      · rw [insertDesc, if_pos h]
      · rw [insertDesc, if_neg h]
        exact (ih.cons y).trans (List.Perm.swap x y ys)

theorem insertDesc_sorted
    (htrans : ∀ a b c, kLt a b = true → kLt b c = true → kLt a c = true)
    (hasymm : ∀ a b, kLt a b = true → kLt b a = false)
    (x : α) {l : List α} (h : SortedDesc kLt key l) :
    SortedDesc kLt key (insertDesc kLt key x l) := by
  induction l with
  | nil => simp [SortedDesc, insertDesc]
  | cons y ys ih =>
      rw [SortedDesc, List.pairwise_cons] at h
      obtain ⟨hy, hys⟩ := h
      by_cases hc : kLt (key y) (key x) = true
      · rw [SortedDesc, insertDesc, if_pos hc, List.pairwise_cons]
        constructor
        · intro z hz
          rcases List.mem_cons.mp hz with rfl | hzys
          · exact hasymm _ _ hc
          · by_contra hxz
            rw [Bool.not_eq_false] at hxz
            have : kLt (key y) (key z) = true := htrans _ _ _ hc hxz
            rw [hy z hzys] at this
            exact Bool.false_ne_true this
        · exact List.pairwise_cons.mpr ⟨hy, hys⟩
      · rw [SortedDesc, insertDesc, if_neg hc, List.pairwise_cons]
        refine ⟨?_, ih hys⟩
        intro z hz
        rcases (mem_insertDesc kLt key).mp hz with rfl | hzys
        · exact Bool.not_eq_true _ |>.mp hc
        · exact hy z hzys

theorem filter_insertDesc [DecidableEq κ]
    (hirrefl : ∀ a, kLt a a = false)
    (x : α) {l : List α} (hs : SortedDesc kLt key l) (k : κ) :
    (insertDesc kLt key x l).filter (fun a => decide (key a = k)) =
      l.filter (fun a => decide (key a = k)) ++
        (if key x = k then [x] else []) := by
  induction l with
  | nil =>
      by_cases h : key x = k <;> simp [insertDesc, h]
  | cons y ys ih =>
      rw [SortedDesc, List.pairwise_cons] at hs
      obtain ⟨hy, hys⟩ := hs
      by_cases hc : kLt (key y) (key x) = true
      · rw [insertDesc, if_pos hc]
        by_cases hxk : key x = k
        · have hnil :
              (y :: ys).filter (fun a => decide (key a = k)) = [] := by
            rw [List.filter_eq_nil_iff]
            intro a ha hak
            have hkey : key a = key x := by
              rw [of_decide_eq_true hak, hxk]
            rcases List.mem_cons.mp ha with rfl | hays
            · rw [hkey, hirrefl (key x)] at hc
              exact Bool.false_ne_true hc
            · have hfalse := hy a hays
              rw [hkey] at hfalse
              rw [hfalse] at hc
              exact Bool.false_ne_true hc
          rw [List.filter_cons_of_pos (by simp [hxk]), hnil, hxk]
          simp
        · rw [List.filter_cons_of_neg (by simp [hxk])]
          simp [hxk]
      · rw [insertDesc, if_neg hc]
        rw [List.filter_cons, List.filter_cons]
        by_cases hyk : key y = k <;> simp [hyk, ih hys]

theorem sortDesc_perm (l : List α) : List.Perm (sortDesc kLt key l) l := by
  suffices h : ∀ (l acc : List α),
      List.Perm (l.foldl (fun acc x => insertDesc kLt key x acc) acc)
        (acc ++ l) by
    simpa [sortDesc] using h l []
  intro l
  induction l with
  | nil => intro acc; simpa using List.Perm.refl acc
  | cons x xs ih =>
      intro acc
      have h1 := ih (insertDesc kLt key x acc)
      have h2 : List.Perm (insertDesc kLt key x acc ++ xs)
          ((x :: acc) ++ xs) :=
        (insertDesc_perm kLt key x acc).append_right xs
      have h3 : List.Perm ((x :: acc) ++ xs) (acc ++ x :: xs) := by
        simpa using (@List.perm_middle _ x acc xs).symm
      exact (h1.trans h2).trans h3

theorem sortDesc_sorted
    (htrans : ∀ a b c, kLt a b = true → kLt b c = true → kLt a c = true)
    (hasymm : ∀ a b, kLt a b = true → kLt b a = false)
    (l : List α) : SortedDesc kLt key (sortDesc kLt key l) := by
  suffices h : ∀ (l acc : List α), SortedDesc kLt key acc →
      SortedDesc kLt key
        (l.foldl (fun acc x => insertDesc kLt key x acc) acc) by
    exact h l [] (List.Pairwise.nil)
  intro l
  induction l with
  | nil => intro acc hacc; simpa using hacc
  | cons x xs ih =>
      intro acc hacc
      exact ih _ (insertDesc_sorted kLt key htrans hasymm x hacc)

theorem sortDesc_filter [DecidableEq κ]
    (htrans : ∀ a b c, kLt a b = true → kLt b c = true → kLt a c = true)
    (hasymm : ∀ a b, kLt a b = true → kLt b a = false)
    (hirrefl : ∀ a, kLt a a = false)
    (l : List α) (k : κ) :
    (sortDesc kLt key l).filter (fun a => decide (key a = k)) =
      l.filter (fun a => decide (key a = k)) := by
  suffices h : ∀ (l acc : List α), SortedDesc kLt key acc →
      (l.foldl (fun acc x => insertDesc kLt key x acc) acc).filter
          (fun a => decide (key a = k)) =
        acc.filter (fun a => decide (key a = k)) ++
          l.filter (fun a => decide (key a = k)) by
    simpa using h l [] List.Pairwise.nil
  intro l
  induction l with
  | nil => intro acc hacc; simp
  | cons x xs ih =>
      intro acc hacc
      have step := filter_insertDesc kLt key hirrefl x hacc k
      have hsorted := insertDesc_sorted kLt key htrans hasymm x hacc
      calc ((x :: xs).foldl (fun acc x => insertDesc kLt key x acc)
              acc).filter (fun a => decide (key a = k))
          = (xs.foldl (fun acc x => insertDesc kLt key x acc)
              (insertDesc kLt key x acc)).filter
              (fun a => decide (key a = k)) := rfl
        _ = (insertDesc kLt key x acc).filter (fun a => decide (key a = k))
              ++ xs.filter (fun a => decide (key a = k)) := ih _ hsorted
        _ = acc.filter (fun a => decide (key a = k)) ++
              (x :: xs).filter (fun a => decide (key a = k)) := by
            rw [step, List.filter_cons]
            by_cases hxk : key x = k <;> simp [hxk]

end SortLemmas

theorem natLt_trans (a b c : Nat) :
    natLt a b = true → natLt b c = true → natLt a c = true := by
  simp [natLt]; omega

theorem natLt_asymm (a b : Nat) : natLt a b = true → natLt b a = false := by
  simp [natLt]; omega

theorem natLt_irrefl (a : Nat) : natLt a a = false := by simp [natLt]

theorem pcLt_trans (a b c : Nat × Int) :
    pcLt a b = true → pcLt b c = true → pcLt a c = true := by
  rcases a with ⟨a1, a2⟩; rcases b with ⟨b1, b2⟩; rcases c with ⟨c1, c2⟩
  simp [pcLt]; omega

theorem pcLt_asymm (a b : Nat × Int) :
    pcLt a b = true → pcLt b a = false := by
  rcases a with ⟨a1, a2⟩; rcases b with ⟨b1, b2⟩
  simp [pcLt]; omega

theorem pcLt_irrefl (a : Nat × Int) : pcLt a a = false := by
  rcases a with ⟨a1, a2⟩; simp [pcLt]

/-! ## Pair Extractor lemmas -/

section ExtractorLemmas

variable {B M K F U : Type} [DecidableEq K] [DecidableEq U]
variable (api : ChessApi B M K F U) (target : Bool)

theorem targetObsFrom_of_limit (b : B) (ms : List M) (i : Nat)
    (h : OPENING_PLIES_LIMIT ≤ i) : targetObsFrom api target b ms i = [] := by
  induction ms generalizing b i with
  | nil => rfl
  | cons m ms ih =>
      have hnot : ¬ (i < OPENING_PLIES_LIMIT ∧ api.turn b = target) := by
        rintro ⟨hlt, -⟩; omega
      simp only [targetObsFrom, gameTrace, List.filterMap_cons, if_neg hnot]
      exact ih (api.push b m) (i + 1) (by omega)

theorem collectGame_eq_foldObs (i : Nat) (b : B) (ms : List M)
    (st : CollectState K F U) :
    collectGame api target i b ms st =
      (targetObsFrom api target b ms i).foldl applyObs st := by
  induction ms generalizing i b st with
  | nil => rfl
  | cons m ms ih =>
      by_cases hlim : OPENING_PLIES_LIMIT ≤ i
      · rw [targetObsFrom_of_limit api target b (m :: ms) i hlim]
        simp [collectGame, hlim]
      · by_cases ht : api.turn b = target
        · have hcond : i < OPENING_PLIES_LIMIT ∧ api.turn b = target :=
            ⟨by omega, ht⟩
          have hturn : ¬ (api.turn b ≠ target) := by simpa using ht
          simp only [collectGame, if_neg hlim, if_neg hturn]
          rw [ih]
          simp only [targetObsFrom, gameTrace, List.filterMap_cons,
            if_pos hcond, List.foldl_cons]
          rfl
        · have hcond : ¬ (i < OPENING_PLIES_LIMIT ∧ api.turn b = target) :=
            fun h => ht h.2
          have hne : api.turn b ≠ target := ht
          simp only [collectGame, if_neg hlim, if_pos hne, targetObsFrom,
            gameTrace, List.filterMap_cons, if_neg hcond]
          exact ih (i + 1) (api.push b m) st

theorem foldl_applyObs_counts_getD (obs : List ((K × U) × F))
    (st : CollectState K F U) (q : K × U) :
    (dget (obs.foldl applyObs st).pair_counts q).getD 0 =
      (dget st.pair_counts q).getD 0 +
        (obs.filter (fun o => decide (o.1 = q))).length := by
  induction obs generalizing st with
  | nil => simp
  | cons o obs ih =>
      by_cases ho : o.1 = q
      · rw [List.foldl_cons, ih, List.filter_cons_of_pos (by simp [ho])]
        have hset : dget (applyObs st o).pair_counts q =
            some ((dget st.pair_counts q).getD 0 + 1) := by
          simp only [applyObs]
          rw [dget_dset, if_pos ho.symm, ho]
        rw [hset]
        simp only [Option.getD_some, List.length_cons]
        omega
      · rw [List.foldl_cons, ih, List.filter_cons_of_neg (by simp [ho])]
        have : dget (applyObs st o).pair_counts q = dget st.pair_counts q := by
          simp only [applyObs, dget_dset]
          rw [if_neg (fun h => ho h.symm)]
        rw [this]

theorem foldl_applyObs_counts_none (obs : List ((K × U) × F))
    (st : CollectState K F U) (q : K × U) :
    (dget (obs.foldl applyObs st).pair_counts q = none ↔
      (dget st.pair_counts q = none ∧
        (obs.filter (fun o => decide (o.1 = q))).length = 0)) := by
  induction obs generalizing st with
  | nil => simp
  | cons o obs ih =>
      by_cases ho : o.1 = q
      · rw [List.foldl_cons, ih, List.filter_cons_of_pos (by simp [ho])]
        have : dget (applyObs st o).pair_counts q =
            some ((dget st.pair_counts o.1).getD 0 + 1) := by
          simp only [applyObs, dget_dset]
          rw [if_pos ho.symm, ho]
        simp [this]
      · rw [List.foldl_cons, ih, List.filter_cons_of_neg (by simp [ho])]
        have : dget (applyObs st o).pair_counts q = dget st.pair_counts q := by
          simp only [applyObs, dget_dset]
          rw [if_neg (fun h => ho h.symm)]
        rw [this]

theorem foldl_applyObs_fens (obs : List ((K × U) × F))
    (st : CollectState K F U) (q : K × U) :
    dget (obs.foldl applyObs st).pair_fens q =
      (match dget st.pair_fens q with
       | some v => some v
       | none =>
         ((obs.filter (fun o => decide (o.1 = q))).head?).map (·.2)) := by
  induction obs generalizing st with
  | nil => cases h : dget st.pair_fens q <;> simp [h]
  | cons o obs ih =>
      by_cases ho : o.1 = q
      · rw [List.foldl_cons, ih, List.filter_cons_of_pos (by simp [ho])]
        have hset : dget (applyObs st o).pair_fens q =
            some ((dget st.pair_fens o.1).getD o.2) := by
          simp only [applyObs, dget_dsetdefault]
          rw [if_pos ho.symm, ho]
        rw [hset, ho]
        cases h : dget st.pair_fens q <;> simp [h]
      · rw [List.foldl_cons, ih, List.filter_cons_of_neg (by simp [ho])]
        have : dget (applyObs st o).pair_fens q = dget st.pair_fens q := by
          simp only [applyObs, dget_dsetdefault]
          rw [if_neg (fun h => ho h.symm)]
        rw [this]

theorem collect_eq_foldObs (games : List (B × List M)) :
    collect_move_pairs api target games =
      (games.flatMap (targetObs api target)).foldl applyObs ⟨[], []⟩ := by
  suffices h : ∀ (games : List (B × List M)) (st : CollectState K F U),
      games.foldl (fun st g => collectGame api target 0 g.1 g.2 st) st =
        (games.flatMap (targetObs api target)).foldl applyObs st by
    exact h games ⟨[], []⟩
  intro games
  induction games with
  | nil => intro st; rfl
  | cons g games ih =>
      intro st
      rw [List.foldl_cons, ih, collectGame_eq_foldObs,
        List.flatMap_cons, List.foldl_append]
      rfl

end ExtractorLemmas

/-! ## Evaluation-cache and classifier lemmas -/

section LoopLemmas

variable {B M K F U : Type} [DecidableEq K] [DecidableEq U]
variable (api : ChessApi B M K F U) (oracle : Oracle B M)

theorem bestLineFor_state (b : B) (st : AState K F U) (k : K) :
    (bestLineFor api oracle b st k).1.after_cache = st.after_cache ∧
    (bestLineFor api oracle b st k).1.mistakes = st.mistakes ∧
    (bestLineFor api oracle b st k).1.singleQueries = st.singleQueries := by
  cases h : dget st.position_cache k <;> simp [bestLineFor, h]

theorem bestLineFor_entry (b : B) (st : AState K F U) (k : K) :
    dget (bestLineFor api oracle b st k).1.position_cache k =
      some (bestLineFor api oracle b st k).2 := by
  cases h : dget st.position_cache k <;> simp [bestLineFor, h, dget_dset]

theorem bestLineFor_cache_mono (b : B) (st : AState K F U) (k k' : K)
    {v : Option Int × List U} (hv : dget st.position_cache k' = some v) :
    dget (bestLineFor api oracle b st k).1.position_cache k' = some v := by
  cases h : dget st.position_cache k with
  | some e => simp [bestLineFor, h, hv]
  | none =>
      simp only [bestLineFor, h, dget_dset]
      rw [if_neg, hv]
      intro he
      rw [he, h] at hv
      exact Option.noConfusion hv

theorem bestLineFor_multiQueries (b : B) (st : AState K F U) (k : K) :
    (bestLineFor api oracle b st k).1.multiQueries =
      st.multiQueries ++
        (if (dget st.position_cache k).isSome then [] else [k]) := by
  cases h : dget st.position_cache k <;> simp [bestLineFor, h]

theorem bestLineFor_cache_isSome (b : B) (st : AState K F U) (k k' : K) :
    (dget (bestLineFor api oracle b st k).1.position_cache k').isSome ↔
      ((dget st.position_cache k').isSome ∨ k' = k) := by
  cases h : dget st.position_cache k with
  | some e =>
      by_cases hk : k' = k <;> simp [bestLineFor, h, hk]
  | none =>
      simp only [bestLineFor, h, dget_dset]
      by_cases hk : k' = k <;> simp [hk, h]

theorem scoreAfter_state (b : B) (st : AState K F U) (k : K) :
    (scoreAfter oracle b st k).1.position_cache = st.position_cache ∧
    (scoreAfter oracle b st k).1.mistakes = st.mistakes ∧
    (scoreAfter oracle b st k).1.multiQueries = st.multiQueries := by
  cases h : dget st.after_cache k <;> simp [scoreAfter, h]

theorem scoreAfter_entry (b : B) (st : AState K F U) (k : K) :
    dget (scoreAfter oracle b st k).1.after_cache k =
      some (scoreAfter oracle b st k).2 := by
  cases h : dget st.after_cache k <;> simp [scoreAfter, h, dget_dset]

theorem scoreAfter_cache_mono (b : B) (st : AState K F U) (k k' : K)
    {v : Option Int} (hv : dget st.after_cache k' = some v) :
    dget (scoreAfter oracle b st k).1.after_cache k' = some v := by
  cases h : dget st.after_cache k with
  | some e => simp [scoreAfter, h, hv]
  | none =>
      simp only [scoreAfter, h, dget_dset]
      rw [if_neg, hv]
      intro he
      rw [he, h] at hv
      exact Option.noConfusion hv

theorem scoreAfter_singleQueries (b : B) (st : AState K F U) (k : K) :
    (scoreAfter oracle b st k).1.singleQueries =
      st.singleQueries ++
        (if (dget st.after_cache k).isSome then [] else [k]) := by
  cases h : dget st.after_cache k <;> simp [scoreAfter, h]

/-- The master description of one classification step: either the mistakes
list is untouched, or exactly one record was appended, and that record was
built from the candidate's stored FEN, its reconstructed board, a legal
parsed move outside the acceptable set, and the two cached oracle scores,
with a mover-perspective loss strictly above the threshold. -/
theorem processCandidate_mistakes (color : Bool)
    (fens : List ((K × U) × F)) (st : AState K F U) (cand : (K × U) × Nat) :
    (processCandidate api oracle color fens st cand).mistakes = st.mistakes
    ∨ ∃ (r : MistakeRecord F U) (b : B) (mv : M) (best sa : Int),
        (processCandidate api oracle color fens st cand).mistakes =
          st.mistakes ++ [r] ∧
        r.user_move = cand.1.2 ∧ r.pair_count = cand.2 ∧ r.color = color ∧
        dget fens cand.1 = some r.fen ∧
        api.parseFen r.fen = some b ∧
        api.parseUci r.user_move = some mv ∧
        api.legal b mv = true ∧
        ¬ (r.top_moves ≠ [] ∧ r.user_move ∈ r.top_moves) ∧
        dget (processCandidate api oracle color fens st cand).position_cache
            cand.1.1 = some (some best, r.top_moves) ∧
        dget (processCandidate api oracle color fens st cand).after_cache
            (api.posKey (api.push b mv)) = some (some sa) ∧
        r.avg_cp_loss = cp_loss (api.turn b) best sa ∧
        MISTAKE_THRESHOLD_CP < r.avg_cp_loss := by
  unfold processCandidate
  split
  · left; rfl
  next fen hf =>
  split
  · left; rfl
  next board hb =>
  split
  next hbest =>
    left; exact (bestLineFor_state api oracle board st cand.1.1).2.1
  next best hbest =>
  split
  next hmv =>
    left; exact (bestLineFor_state api oracle board st cand.1.1).2.1
  next mv hmv =>
  split
  next hleg =>
    left; exact (bestLineFor_state api oracle board st cand.1.1).2.1
  next hleg =>
  split
  next htop =>
    left; exact (bestLineFor_state api oracle board st cand.1.1).2.1
  next htop =>
  split
  next hsa =>
    left
    rw [(scoreAfter_state oracle (api.push board mv)
      (bestLineFor api oracle board st cand.1.1).1
      (api.posKey (api.push board mv))).2.1]
    exact (bestLineFor_state api oracle board st cand.1.1).2.1
  next sa hsa =>
  split
  next hthr =>
    left
    rw [(scoreAfter_state oracle (api.push board mv)
      (bestLineFor api oracle board st cand.1.1).1
      (api.posKey (api.push board mv))).2.1]
    exact (bestLineFor_state api oracle board st cand.1.1).2.1
  next hthr =>
    right
    have hleg' : api.legal board mv = true := by
      revert hleg; cases api.legal board mv <;> simp
    have hmist2 : (scoreAfter oracle (api.push board mv)
        (bestLineFor api oracle board st cand.1.1).1
        (api.posKey (api.push board mv))).1.mistakes = st.mistakes := by
      rw [(scoreAfter_state oracle (api.push board mv)
        (bestLineFor api oracle board st cand.1.1).1
        (api.posKey (api.push board mv))).2.1]
      exact (bestLineFor_state api oracle board st cand.1.1).2.1
    have hpc : dget (scoreAfter oracle (api.push board mv)
        (bestLineFor api oracle board st cand.1.1).1
        (api.posKey (api.push board mv))).1.position_cache cand.1.1 =
        some (some best,
          (bestLineFor api oracle board st cand.1.1).2.2) := by
      rw [(scoreAfter_state oracle (api.push board mv)
        (bestLineFor api oracle board st cand.1.1).1
        (api.posKey (api.push board mv))).1]
      have := bestLineFor_entry api oracle board st cand.1.1
      rwa [show (bestLineFor api oracle board st cand.1.1).2 =
        ((bestLineFor api oracle board st cand.1.1).2.1,
         (bestLineFor api oracle board st cand.1.1).2.2) from rfl,
        hbest] at this
    have hac : dget (scoreAfter oracle (api.push board mv)
        (bestLineFor api oracle board st cand.1.1).1
        (api.posKey (api.push board mv))).1.after_cache
        (api.posKey (api.push board mv)) = some (some sa) := by
      have := scoreAfter_entry oracle (api.push board mv)
        (bestLineFor api oracle board st cand.1.1).1
        (api.posKey (api.push board mv))
      rwa [hsa] at this
    refine ⟨⟨fen, cand.1.2,
        (bestLineFor api oracle board st cand.1.1).2.2,
        cp_loss (api.turn board) best sa, cand.2, color⟩,
      board, mv, best, sa, ?_, rfl, rfl, rfl, hf, hb, hmv, hleg',
      htop, hpc, hac, rfl, not_le.mp hthr⟩
    simpa using congrArg (fun l => l ++
      [(⟨fen, cand.1.2,
        (bestLineFor api oracle board st cand.1.1).2.2,
        cp_loss (api.turn board) best sa, cand.2, color⟩ :
          MistakeRecord F U)]) hmist2

theorem processCandidate_mistakes_sub (color : Bool)
    (fens : List ((K × U) × F)) (st : AState K F U) (cand : (K × U) × Nat) :
    (processCandidate api oracle color fens st cand).mistakes = st.mistakes
    ∨ ∃ r, (processCandidate api oracle color fens st cand).mistakes =
          st.mistakes ++ [r] ∧
        r.pair_count = cand.2 ∧ MISTAKE_THRESHOLD_CP < r.avg_cp_loss ∧
        ∃ (b : B) (best sa : Int), api.parseFen r.fen = some b ∧
          r.avg_cp_loss = cp_loss (api.turn b) best sa := by
  rcases processCandidate_mistakes api oracle color fens st cand with h |
    ⟨r, b, mv, best, sa, happ, _, hcount, _, _, hparse, _, _, _, _, _,
      hlosseq, hthr⟩
  · exact Or.inl h
  · exact Or.inr ⟨r, happ, hcount, hthr, b, best, sa, hparse, hlosseq⟩

theorem processCandidate_pcache_mono (color : Bool)
    (fens : List ((K × U) × F)) (st : AState K F U) (cand : (K × U) × Nat)
    (k : K) {v : Option Int × List U}
    (hv : dget st.position_cache k = some v) :
    dget (processCandidate api oracle color fens st cand).position_cache k =
      some v := by
  unfold processCandidate
  split
  · exact hv
  next fen hf =>
  split
  · exact hv
  next board hb =>
  have hb1 := bestLineFor_cache_mono api oracle board st cand.1.1 k hv
  have hsc : ∀ mv : M,
      dget (scoreAfter oracle (api.push board mv)
        (bestLineFor api oracle board st cand.1.1).1
        (api.posKey (api.push board mv))).1.position_cache k = some v := by
    intro mv
    rw [(scoreAfter_state oracle (api.push board mv)
      (bestLineFor api oracle board st cand.1.1).1
      (api.posKey (api.push board mv))).1]
    exact hb1
  split
  next hbest => exact hb1
  next best hbest =>
  split
  next hmv => exact hb1
  next mv hmv =>
  split
  next hleg => exact hb1
  next hleg =>
  split
  next htop => exact hb1
  next htop =>
  split
  next hsa => exact hsc mv
  next sa hsa =>
  split
  next hthr => exact hsc mv
  next hthr => exact hsc mv

theorem processCandidate_acache_mono (color : Bool)
    (fens : List ((K × U) × F)) (st : AState K F U) (cand : (K × U) × Nat)
    (k : K) {v : Option Int}
    (hv : dget st.after_cache k = some v) :
    dget (processCandidate api oracle color fens st cand).after_cache k =
      some v := by
  unfold processCandidate
  split
  · exact hv
  next fen hf =>
  split
  · exact hv
  next board hb =>
  have hb1 : dget (bestLineFor api oracle board st
      cand.1.1).1.after_cache k = some v := by
    rw [(bestLineFor_state api oracle board st cand.1.1).1]; exact hv
  have hsc : ∀ mv : M,
      dget (scoreAfter oracle (api.push board mv)
        (bestLineFor api oracle board st cand.1.1).1
        (api.posKey (api.push board mv))).1.after_cache k = some v :=
    fun mv => scoreAfter_cache_mono oracle (api.push board mv)
      (bestLineFor api oracle board st cand.1.1).1
      (api.posKey (api.push board mv)) k hb1
  split
  next hbest => exact hb1
  next best hbest =>
  split
  next hmv => exact hb1
  next mv hmv =>
  split
  next hleg => exact hb1
  next hleg =>
  split
  next htop => exact hb1
  next htop =>
  split
  next hsa => exact hsc mv
  next sa hsa =>
  split
  next hthr => exact hsc mv
  next hthr => exact hsc mv

theorem processCandidate_singleQueries_cases (color : Bool)
    (fens : List ((K × U) × F)) (st : AState K F U) (cand : (K × U) × Nat) :
    (processCandidate api oracle color fens st cand).singleQueries =
      st.singleQueries
    ∨ ∃ (f : F) (b : B) (mv : M),
        dget fens cand.1 = some f ∧ api.parseFen f = some b ∧
        api.parseUci cand.1.2 = some mv ∧
        (processCandidate api oracle color fens st cand).singleQueries =
          st.singleQueries ++ [api.posKey (api.push b mv)] := by
  unfold processCandidate
  split
  · left; rfl
  next fen hf =>
  split
  · left; rfl
  next board hb =>
  have hb1 : (bestLineFor api oracle board st cand.1.1).1.singleQueries =
      st.singleQueries := (bestLineFor_state api oracle board st cand.1.1).2.2
  have hsc : ∀ mv : M,
      (scoreAfter oracle (api.push board mv)
        (bestLineFor api oracle board st cand.1.1).1
        (api.posKey (api.push board mv))).1.singleQueries =
      st.singleQueries ++
        (if (dget (bestLineFor api oracle board st
            cand.1.1).1.after_cache (api.posKey (api.push board mv))).isSome
         then [] else [api.posKey (api.push board mv)]) := by
    intro mv
    rw [scoreAfter_singleQueries, hb1]
  split
  next hbest => left; exact hb1
  next best hbest =>
  split
  next hmv => left; exact hb1
  next mv hmv =>
  split
  next hleg => left; exact hb1
  next hleg =>
  split
  next htop => left; exact hb1
  next htop =>
  have hend : ∀ st' : AState K F U,
      st'.singleQueries =
        st.singleQueries ++
          (if (dget (bestLineFor api oracle board st
              cand.1.1).1.after_cache
              (api.posKey (api.push board mv))).isSome
           then [] else [api.posKey (api.push board mv)]) →
      st'.singleQueries = st.singleQueries ∨
      st'.singleQueries =
        st.singleQueries ++ [api.posKey (api.push board mv)] := by
    intro st' h
    by_cases hc : (dget (bestLineFor api oracle board st
        cand.1.1).1.after_cache (api.posKey (api.push board mv))).isSome
    · left; rw [h, if_pos hc]; simp
    · right; rw [h, if_neg hc]
  split
  next hsa =>
    rcases hend _ (hsc mv) with h | h
    · left; exact h
    · right; exact ⟨fen, board, mv, hf, hb, hmv, h⟩
  next sa hsa =>
  split
  next hthr =>
    rcases hend _ (hsc mv) with h | h
    · left; exact h
    · right; exact ⟨fen, board, mv, hf, hb, hmv, h⟩
  next hthr =>
    rcases hend _ (hsc mv) with h | h
    · left; exact h
    · right; exact ⟨fen, board, mv, hf, hb, hmv, h⟩

theorem processCandidate_pos_queries (color : Bool)
    (fens : List ((K × U) × F)) (st : AState K F U) (cand : (K × U) × Nat)
    (f : F) (b : B)
    (hf : dget fens cand.1 = some f) (hb : api.parseFen f = some b) :
    (processCandidate api oracle color fens st cand).position_cache =
      (bestLineFor api oracle b st cand.1.1).1.position_cache ∧
    (processCandidate api oracle color fens st cand).multiQueries =
      (bestLineFor api oracle b st cand.1.1).1.multiQueries := by
  unfold processCandidate
  split
  next hf' => rw [hf] at hf'; exact Option.noConfusion hf'
  next fen hf' =>
  rw [hf] at hf'
  injection hf' with hfen
  subst hfen
  split
  next hb' => rw [hb] at hb'; exact Option.noConfusion hb'
  next board hb' =>
  rw [hb] at hb'
  injection hb' with hboard
  subst hboard
  have hsc : ∀ mv : M,
      (scoreAfter oracle (api.push b mv)
          (bestLineFor api oracle b st cand.1.1).1
          (api.posKey (api.push b mv))).1.position_cache =
        (bestLineFor api oracle b st cand.1.1).1.position_cache ∧
      (scoreAfter oracle (api.push b mv)
          (bestLineFor api oracle b st cand.1.1).1
          (api.posKey (api.push b mv))).1.multiQueries =
        (bestLineFor api oracle b st cand.1.1).1.multiQueries := by
    intro mv
    exact ⟨(scoreAfter_state oracle (api.push b mv)
        (bestLineFor api oracle b st cand.1.1).1
        (api.posKey (api.push b mv))).1,
      (scoreAfter_state oracle (api.push b mv)
        (bestLineFor api oracle b st cand.1.1).1
        (api.posKey (api.push b mv))).2.2⟩
  split
  next hbest => exact ⟨rfl, rfl⟩
  next best hbest =>
  split
  next hmv => exact ⟨rfl, rfl⟩
  next mv hmv =>
  split
  next hleg => exact ⟨rfl, rfl⟩
  next hleg =>
  split
  next htop => exact ⟨rfl, rfl⟩
  next htop =>
  split
  next hsa => exact hsc mv
  next sa hsa =>
  split
  next hthr => exact hsc mv
  next hthr => exact hsc mv

theorem processCandidate_multiQueries_cases (color : Bool)
    (fens : List ((K × U) × F)) (st : AState K F U) (cand : (K × U) × Nat) :
    (processCandidate api oracle color fens st cand).multiQueries =
      st.multiQueries
    ∨ (processCandidate api oracle color fens st cand).multiQueries =
        st.multiQueries ++ [cand.1.1] := by
  unfold processCandidate
  split
  · left; rfl
  next fen hf =>
  split
  · left; rfl
  next board hb =>
  have hcases : ∀ st' : AState K F U,
      st'.multiQueries =
        (bestLineFor api oracle board st cand.1.1).1.multiQueries →
      st'.multiQueries = st.multiQueries ∨
      st'.multiQueries = st.multiQueries ++ [cand.1.1] := by
    intro st' h
    rw [h, bestLineFor_multiQueries]
    by_cases hc : (dget st.position_cache cand.1.1).isSome
    · left; simp [hc]
    · right; rw [if_neg hc]
  have hsc : ∀ mv : M,
      (scoreAfter oracle (api.push board mv)
        (bestLineFor api oracle board st cand.1.1).1
        (api.posKey (api.push board mv))).1.multiQueries =
      (bestLineFor api oracle board st cand.1.1).1.multiQueries :=
    fun mv => (scoreAfter_state oracle (api.push board mv)
      (bestLineFor api oracle board st cand.1.1).1
      (api.posKey (api.push board mv))).2.2
  split
  next hbest => exact hcases _ rfl
  next best hbest =>
  split
  next hmv => exact hcases _ rfl
  next mv hmv =>
  split
  next hleg => exact hcases _ rfl
  next hleg =>
  split
  next htop => exact hcases _ rfl
  next htop =>
  split
  next hsa => exact hcases _ (hsc mv)
  next sa hsa =>
  split
  next hthr => exact hcases _ (hsc mv)
  next hthr => exact hcases _ (hsc mv)

/-- The classification step preserves the cache/query-log invariant and
adds the candidate's position key to the query log exactly when it was not
cached, provided the candidate has a stored, parseable FEN. -/
theorem processCandidate_inv (color : Bool)
    (fens : List ((K × U) × F)) (st : AState K F U) (cand : (K × U) × Nat)
    (f : F) (b : B)
    (hf : dget fens cand.1 = some f) (hb : api.parseFen f = some b)
    (hinv : CacheInv st) :
    CacheInv (processCandidate api oracle color fens st cand) ∧
    (∀ k, k ∈ (processCandidate api oracle color fens st cand).multiQueries
      ↔ (k ∈ st.multiQueries ∨ k = cand.1.1)) := by
  obtain ⟨hpc, hmq⟩ :=
    processCandidate_pos_queries api oracle color fens st cand f b hf hb
  have hmem : ∀ k,
      k ∈ (processCandidate api oracle color fens st cand).multiQueries ↔
        (k ∈ st.multiQueries ∨ k = cand.1.1) := by
    intro k
    rw [hmq, bestLineFor_multiQueries]
    by_cases hc : (dget st.position_cache cand.1.1).isSome
    · rw [if_pos hc]
      simp only [List.append_nil]
      constructor
      · exact Or.inl
      · rintro (h | rfl)
        · exact h
        · exact (hinv.2 cand.1.1).mp hc
    · rw [if_neg hc]
      simp [List.mem_append]
  refine ⟨⟨?_, ?_⟩, hmem⟩
  · rw [hmq, bestLineFor_multiQueries]
    by_cases hc : (dget st.position_cache cand.1.1).isSome
    · rw [if_pos hc]; simpa using hinv.1
    · rw [if_neg hc]
      rw [List.nodup_append]
      refine ⟨hinv.1, List.nodup_singleton _, ?_⟩
      intro a ha hb'
      rw [List.mem_singleton] at hb'
      subst hb'
      exact hc ((hinv.2 cand.1.1).mpr ha)
  · intro k
    rw [hpc, bestLineFor_cache_isSome, hmem k]
    rw [hinv.2 k]

theorem foldl_mistakes_mem (color : Bool) (fens : List ((K × U) × F))
    (cands : List ((K × U) × Nat)) (st : AState K F U)
    (r : MistakeRecord F U)
    (hr : r ∈ (cands.foldl (processCandidate api oracle color fens)
        st).mistakes) :
    r ∈ st.mistakes ∨
    ∃ c ∈ cands, r.pair_count = c.2 ∧
      MISTAKE_THRESHOLD_CP < r.avg_cp_loss ∧
      ∃ (b : B) (best sa : Int), api.parseFen r.fen = some b ∧
        r.avg_cp_loss = cp_loss (api.turn b) best sa := by
  induction cands generalizing st with
  | nil => exact Or.inl hr
  | cons c cands ih =>
      rw [List.foldl_cons] at hr
      rcases ih (processCandidate api oracle color fens st c) hr with
        h | ⟨c', hc', hp⟩
      · rcases processCandidate_mistakes_sub api oracle color fens st c with
          he | ⟨r', happ, hcount, hthr, hex⟩
        · rw [he] at h; exact Or.inl h
        · rw [happ] at h
          rcases List.mem_append.mp h with h1 | h2
          · exact Or.inl h1
          · have hrr : r = r' := by simpa using h2
            subst hrr
            exact Or.inr ⟨c, List.mem_cons_self c cands, hcount, hthr, hex⟩
      · exact Or.inr ⟨c', List.mem_cons_of_mem c hc', hp⟩

theorem foldl_multiQueries_mem (color : Bool) (fens : List ((K × U) × F))
    (cands : List ((K × U) × Nat)) (st : AState K F U) (k : K)
    (hk : k ∈ (cands.foldl (processCandidate api oracle color fens)
        st).multiQueries) :
    k ∈ st.multiQueries ∨ ∃ c ∈ cands, k = c.1.1 := by
  induction cands generalizing st with
  | nil => exact Or.inl hk
  | cons c cands ih =>
      rw [List.foldl_cons] at hk
      rcases ih (processCandidate api oracle color fens st c) hk with
        h | ⟨c', hc', hp⟩
      · rcases processCandidate_multiQueries_cases api oracle color fens st c
          with he | he
        · rw [he] at h; exact Or.inl h
        · rw [he] at h
          rcases List.mem_append.mp h with h1 | h2
          · exact Or.inl h1
          · rw [List.mem_singleton] at h2
            exact Or.inr ⟨c, List.mem_cons_self c cands, h2⟩
      · exact Or.inr ⟨c', List.mem_cons_of_mem c hc', hp⟩

theorem foldl_inv (color : Bool) (fens : List ((K × U) × F))
    (cands : List ((K × U) × Nat)) (st : AState K F U)
    (hpre : ∀ c ∈ cands, ∃ f b, dget fens c.1 = some f ∧
      api.parseFen f = some b)
    (hinv : CacheInv st) :
    CacheInv (cands.foldl (processCandidate api oracle color fens) st) ∧
    ∀ k, k ∈ (cands.foldl (processCandidate api oracle color fens)
        st).multiQueries ↔
      (k ∈ st.multiQueries ∨ ∃ c ∈ cands, k = c.1.1) := by
  induction cands generalizing st with
  | nil => exact ⟨hinv, by simp⟩
  | cons c cands ih =>
      obtain ⟨f, b, hf, hb⟩ := hpre c (List.mem_cons_self c cands)
      obtain ⟨hinv', hmem'⟩ :=
        processCandidate_inv api oracle color fens st c f b hf hb hinv
      obtain ⟨hinvf, hmemf⟩ :=
        ih (processCandidate api oracle color fens st c)
          (fun c' hc' => hpre c' (List.mem_cons_of_mem c hc')) hinv'
      refine ⟨hinvf, ?_⟩
      intro k
      rw [List.foldl_cons, hmemf k, hmem' k]
      constructor
      · rintro ((h | rfl) | ⟨c', hc', rfl⟩)
        · exact Or.inl h
        · exact Or.inr ⟨c, List.mem_cons_self c cands, rfl⟩
        · exact Or.inr ⟨c', List.mem_cons_of_mem c hc', rfl⟩
      · rintro (h | ⟨c', hc', rfl⟩)
        · exact Or.inl (Or.inl h)
        · rcases List.mem_cons.mp hc' with rfl | hc''
          · exact Or.inl (Or.inr rfl)
          · exact Or.inr ⟨c', hc'', rfl⟩

theorem initAState_inv : CacheInv (initAState : AState K F U) := by
  constructor
  · exact List.nodup_nil
  · intro k; simp [initAState, dget]

end LoopLemmas

/-! ## Oracle startup lemmas -/

theorem firstEngine_none {E : Type} (env : StartEnv E)
    (hfail : ∀ p, env.tryPopen p = none) (l : List String) :
    firstEngine env l = none := by
  induction l with
  | nil => rfl
  | cons c rest ih => simp [firstEngine, hfail c, ih]

theorem start_stockfish_error_msg {E : Type} (env : StartEnv E)
    (hfail : ∀ p, env.tryPopen p = none) :
    ∃ msg, start_stockfish env = .error msg ∧ msg ≠ "" := by
  refine ⟨"Unable to start Stockfish. Tried: " ++
    String.intercalate ", " (env.candidates.map env.display) ++ ".", ?_, ?_⟩
  · simp only [start_stockfish, firstEngine_none env hfail]
  · intro h
    have hlen := congrArg String.length h
    rw [String.length_append, String.length_append] at hlen
    have h1 : ".".length = 1 := rfl
    have h0 : "".length = 0 := rfl
    rw [h1, h0] at hlen
    omega

/-! # Claim theorems -/

section Claims

variable {B M K F U E : Type} [DecidableEq K] [DecidableEq U]

/-- Claim C9: a delete-by-index request whose index is outside the bounds
of the stored collection (in particular, any index against an empty
collection) leaves the stored collection unchanged; an in-bounds index
removes exactly the record at that index (the list becomes
`take index ++ drop (index+1)`, i.e. `eraseIdx index`, one element
shorter). -/
theorem C9_delete_by_index (ms : List JEntry) (index : Nat) :
    (ms.length ≤ index →
      delete_mistake (some (.ok ms)) index = (some (.ok ms), 204)) ∧
    (index < ms.length →
      delete_mistake (some (.ok ms)) index =
        (some (.ok (ms.take index ++ ms.drop (index + 1))), 204) ∧
      ms.take index ++ ms.drop (index + 1) = ms.eraseIdx index ∧
      (ms.take index ++ ms.drop (index + 1)).length + 1 = ms.length) ∧
    (∀ i : Nat, delete_mistake (some (.ok ([] : List JEntry))) i =
      (some (.ok ([] : List JEntry)), 204)) := by
  refine ⟨?_, ?_, ?_⟩
  · intro h
    have hno : ¬ index < ms.length := by omega
    simp [delete_mistake, hno]
  · intro h
    refine ⟨by simp [delete_mistake, h], ?_, ?_⟩
    · rw [List.eraseIdx_eq_take_drop_succ]
    · rw [List.length_append, List.length_take, List.length_drop]
      omega
  · intro i
    simp [delete_mistake]

/-- Witness for C9 at concrete inputs: index 5 against a two-element
collection is rejected without mutation; index 0 removes exactly the first
record. -/
theorem C9_delete_by_index_witness :
    delete_mistake (some (.ok [JEntry.other, JEntry.other])) 5 =
      (some (.ok [JEntry.other, JEntry.other]), 204) ∧
    delete_mistake (some (.ok [JEntry.jdict (some 150), JEntry.other])) 0 =
      (some (.ok [JEntry.other]), 204) := by
  constructor
  · exact (C9_delete_by_index [JEntry.other, JEntry.other] 5).1 (by decide)
  · have h := ((C9_delete_by_index
      [JEntry.jdict (some 150), JEntry.other] 0).2.1 (by decide)).1
    simpa using h

/-- Claim C10: reading back a persisted analysis list returns exactly the
entries that are JSON objects whose `avg_cp_loss` is at least
`MISTAKE_THRESHOLD_CP` — an inclusive bound, so a record exactly at the
threshold is kept; a record below the threshold, a non-object entry, or an
object missing the field (defaulted to 0) is silently omitted. -/
theorem C10_load_mistakes_filter (data : List JEntry)
    (ec : Option (Except Unit (Option String))) (flag : Bool) :
    ((load_mistakes (some (.ok (.list data))) ec flag).1 =
      data.filter (fun m =>
        m.isDict && decide (MISTAKE_THRESHOLD_CP ≤ m.loss))) ∧
    (∀ m, m ∈ (load_mistakes (some (.ok (.list data))) ec flag).1 ↔
      (m ∈ data ∧ m.isDict = true ∧ MISTAKE_THRESHOLD_CP ≤ m.loss)) ∧
    (∀ m ∈ data, m.loss < MISTAKE_THRESHOLD_CP →
      m ∉ (load_mistakes (some (.ok (.list data))) ec flag).1) ∧
    (JEntry.other ∉ (load_mistakes (some (.ok (.list data))) ec flag).1) ∧
    (JEntry.jdict none ∉
      (load_mistakes (some (.ok (.list data))) ec flag).1) ∧
    (JEntry.jdict (some MISTAKE_THRESHOLD_CP) ∈ data →
      JEntry.jdict (some MISTAKE_THRESHOLD_CP) ∈
        (load_mistakes (some (.ok (.list data))) ec flag).1) := by
  refine ⟨rfl, ?_, ?_, ?_, ?_, ?_⟩
  · intro m
    simp [load_mistakes, List.mem_filter]
  · intro m hm hlt hmem
    simp [load_mistakes, List.mem_filter] at hmem
    omega
  · intro hmem
    simp [load_mistakes, List.mem_filter, JEntry.isDict] at hmem
  · intro hmem
    simp [load_mistakes, List.mem_filter, JEntry.isDict, JEntry.loss,
      MISTAKE_THRESHOLD_CP] at hmem
  · intro hmem
    simpa [load_mistakes, List.mem_filter, JEntry.isDict, JEntry.loss]
      using hmem

/-- Witness for C10 at a concrete list: the threshold-equal record is
returned, the below-threshold record, the field-less object and the
non-object entry are omitted. -/
theorem C10_load_mistakes_filter_witness :
    (JEntry.jdict (some MISTAKE_THRESHOLD_CP) ∈
      (load_mistakes (some (.ok (.list
        [JEntry.jdict (some MISTAKE_THRESHOLD_CP), JEntry.jdict (some 99),
         JEntry.jdict none, JEntry.other]))) none false).1) ∧
    (JEntry.jdict (some 99) ∉
      (load_mistakes (some (.ok (.list
        [JEntry.jdict (some MISTAKE_THRESHOLD_CP), JEntry.jdict (some 99),
         JEntry.jdict none, JEntry.other]))) none false).1) := by
  constructor
  · exact (C10_load_mistakes_filter
      [JEntry.jdict (some MISTAKE_THRESHOLD_CP), JEntry.jdict (some 99),
       JEntry.jdict none, JEntry.other] none false).2.2.2.2.2 (by decide)
  · exact (C10_load_mistakes_filter
      [JEntry.jdict (some MISTAKE_THRESHOLD_CP), JEntry.jdict (some 99),
       JEntry.jdict none, JEntry.other] none false).2.2.1
      (JEntry.jdict (some 99)) (by decide) (by decide)

/-- Claim C2 (refuted, code bug in the source): the `top_moves` filter in
`analyze_pgn` compares raw White-relative scores
(`best_score - mv_score <= TOP_MOVE_THRESHOLD_CP`) without normalising to
the mover's perspective.  At a Black-to-move position whose oracle reply is
a best line at −50 (White-relative) and a second line at +200, the second
line's first move is 250 cp worse for the mover than the best line — far
beyond the 30 cp tolerance — yet it is placed into `top_moves`. -/
theorem C2_top_moves_not_color_normalized :
    bApi.turn 0 = false ∧
    computeBestEntry bApi bOracle 0 = (some (-50), [10, 20]) ∧
    TOP_MOVE_THRESHOLD_CP < -(-50 : Int) - -(200 : Int) ∧
    20 ∈ (computeBestEntry bApi bOracle 0).2 := by
  refine ⟨rfl, rfl, by decide, ?_⟩
  show (20 : Nat) ∈ [10, 20]
  decide

/-- Claim C7: for every game, exactly the target-turn plies with index
below `OPENING_PLIES_LIMIT` are counted: the count of a (position key,
move) pair is the number of such observations of it across the corpus
(boards being advanced by every move, including the non-target side's and
the pair's representative FEN is the one of its first observation.
Plies at or beyond the limit, and plies where the other side moves,
contribute to no pair. -/
theorem C7_pair_extractor (api : ChessApi B M K F U) (target : Bool)
    (games : List (B × List M)) (k : K) (u : U) :
    (dget (collect_move_pairs api target games).pair_counts (k, u) =
      (if ((games.flatMap (targetObs api target)).filter
            (fun o => decide (o.1 = (k, u)))).length = 0 then none
       else some ((games.flatMap (targetObs api target)).filter
            (fun o => decide (o.1 = (k, u)))).length)) ∧
    (dget (collect_move_pairs api target games).pair_fens (k, u) =
      (((games.flatMap (targetObs api target)).filter
            (fun o => decide (o.1 = (k, u)))).head?).map (·.2)) := by
  rw [collect_eq_foldObs]
  constructor
  · have h1 := foldl_applyObs_counts_getD
      (games.flatMap (targetObs api target)) ⟨[], []⟩ (k, u)
    have h2 := foldl_applyObs_counts_none
      (games.flatMap (targetObs api target)) ⟨[], []⟩ (k, u)
    simp only [dget, Option.getD_none, Nat.zero_add] at h1 h2
    by_cases hz : ((games.flatMap (targetObs api target)).filter
        (fun o => decide (o.1 = (k, u)))).length = 0
    · rw [if_pos hz]
      exact h2.mpr ⟨trivial, hz⟩
    · rw [if_neg hz]
      rcases ho : dget ((games.flatMap (targetObs api target)).foldl
          applyObs ⟨[], []⟩).pair_counts (k, u) with _ | n
      · exact absurd (h2.mp ho).2 hz
      · rw [ho] at h1
        rw [Option.getD_some] at h1
        rw [h1]
  · have h3 := foldl_applyObs_fens
      (games.flatMap (targetObs api target)) ⟨[], []⟩ (k, u)
    simpa only [dget] using h3

/-- Claim C1: every record the classifier emits carries a loss computed
from the mover's perspective — the side to move on the board reconstructed
from the record's FEN: `best - after` for a White mover, `after - best`
for a Black mover, where `best` and `after` are the cached White-relative
scores of the position and of the position after the played move.  In
particular `best=50, after=-10` gives 60 for a White mover, and the
mirrored `best=-50, after=10` gives 60 (never −60) for a Black mover. -/
theorem C1_mover_perspective_loss (api : ChessApi B M K F U)
    (oracle : Oracle B M) (color : Bool) (fens : List ((K × U) × F))
    (st : AState K F U) (cand : (K × U) × Nat) :
    (∀ r : MistakeRecord F U,
      r ∈ (processCandidate api oracle color fens st cand).mistakes →
      r ∉ st.mistakes →
      ∃ (b : B) (mv : M) (best sa : Int),
        api.parseFen r.fen = some b ∧
        api.parseUci r.user_move = some mv ∧
        dget (processCandidate api oracle color fens st
            cand).position_cache cand.1.1 = some (some best, r.top_moves) ∧
        dget (processCandidate api oracle color fens st cand).after_cache
          (api.posKey (api.push b mv)) = some (some sa) ∧
        r.avg_cp_loss = cp_loss (api.turn b) best sa ∧
        (api.turn b = true → r.avg_cp_loss = best - sa) ∧
        (api.turn b = false → r.avg_cp_loss = sa - best)) ∧
    cp_loss true 50 (-10) = 60 ∧
    cp_loss false (-50) 10 = 60 ∧
    cp_loss false (-50) 10 ≠ -60 := by
  refine ⟨?_, by decide, by decide, by decide⟩
  intro r hmem hnot
  rcases processCandidate_mistakes api oracle color fens st cand with he |
    ⟨r', b, mv, best, sa, happ, huser, hcount, hcolor, hfens, hparse, hmvp,
      hlegal, htop, hposc, hafterc, hlosseq, hthr⟩
  · rw [he] at hmem; exact absurd hmem hnot
  · rw [happ] at hmem
    rcases List.mem_append.mp hmem with h1 | h2
    · exact absurd h1 hnot
    · have hrr : r = r' := by simpa using h2
      subst hrr
      refine ⟨b, mv, best, sa, hparse, hmvp, hposc, hafterc, hlosseq,
        ?_, ?_⟩
      · intro ht; rw [hlosseq]; simp [cp_loss, ht]
      · intro ht; rw [hlosseq]; simp [cp_loss, ht]

/-- Witness for C1: a concrete White-mover emission (best 50, after −100,
loss 150). -/
theorem C1_mover_perspective_loss_witness :
    ∃ (b : Nat) (mv : Nat) (best sa : Int),
      wApi.parseFen
        ((⟨0, 5, [9], 150, 3, true⟩ : MistakeRecord Nat Nat).fen) =
          some b ∧
      wApi.parseUci
        ((⟨0, 5, [9], 150, 3, true⟩ : MistakeRecord Nat Nat).user_move) =
          some mv ∧
      dget (processCandidate wApi wOracle true wFens initAState
          wCand).position_cache wCand.1.1 =
        some (some best,
          (⟨0, 5, [9], 150, 3, true⟩ : MistakeRecord Nat Nat).top_moves) ∧
      dget (processCandidate wApi wOracle true wFens initAState
          wCand).after_cache (wApi.posKey (wApi.push b mv)) =
        some (some sa) ∧
      (⟨0, 5, [9], 150, 3, true⟩ : MistakeRecord Nat Nat).avg_cp_loss =
        cp_loss (wApi.turn b) best sa ∧
      (wApi.turn b = true →
        (⟨0, 5, [9], 150, 3, true⟩ : MistakeRecord Nat Nat).avg_cp_loss =
          best - sa) ∧
      (wApi.turn b = false →
        (⟨0, 5, [9], 150, 3, true⟩ : MistakeRecord Nat Nat).avg_cp_loss =
          sa - best) :=
  (C1_mover_perspective_loss wApi wOracle true wFens initAState wCand).1
    ⟨0, 5, [9], 150, 3, true⟩ (by decide) (by decide)

/-- Claim C3: a loss exactly equal to `MISTAKE_THRESHOLD_CP` is not
reported (`cp_loss <= MISTAKE_THRESHOLD_CP: continue`); every record in
`analyze_pgn`'s output has `avg_cp_loss` strictly above the threshold.
The second conjunct runs a concrete borderline corpus (White loss exactly
100) and observes the empty output. -/
theorem C3_strict_threshold (api : ChessApi B M K F U) (oracle : Oracle B M)
    (senv : StartEnv E) (color : Bool) (games : List (B × List M)) :
    (∀ l, analyze_pgn api oracle senv color games = .ok l →
      ∀ r ∈ l, MISTAKE_THRESHOLD_CP < r.avg_cp_loss) ∧
    analyze_pgn wApi wOracleEq okSenv true [wGame, wGame] =
      .ok ([] : List (MistakeRecord Nat Nat)) := by
  constructor
  · intro l hl r hr
    simp only [analyze_pgn] at hl
    split at hl
    · injection hl with h
      subst h
      simp at hr
    · split at hl
      · exact Except.noConfusion hl
      · injection hl with h
        subst h
        have hmem := ((sortDesc_perm pcLt recKey _).mem_iff).mp hr
        rcases foldl_mistakes_mem api oracle color _ _ initAState r hmem
          with h0 | ⟨c, hc, _, hthr, _⟩
        · simp [initAState] at h0
        · exact hthr
  · rfl

/-- Witness for C3: the record emitted by the concrete (loss 150) run has
its loss strictly above the threshold. -/
theorem C3_strict_threshold_witness :
    MISTAKE_THRESHOLD_CP <
      (⟨0, 5, [9], 150, 2, true⟩ : MistakeRecord Nat Nat).avg_cp_loss :=
  (C3_strict_threshold wApi wOracle okSenv true [wGame, wGame]).1
    [⟨0, 5, [9], 150, 2, true⟩] rfl ⟨0, 5, [9], 150, 2, true⟩ (by decide)

/-- Claim C4: cache entries are never overwritten (both caches are keyed
on the position key alone and a cached value survives every later step),
and — when every selected candidate has a stored, parseable FEN — the
number of multi-line oracle queries equals the number of distinct position
keys among the selected candidates. -/
theorem C4_evaluation_cache (api : ChessApi B M K F U) (oracle : Oracle B M)
    (color : Bool) (games : List (B × List M)) :
    (∀ (fens : List ((K × U) × F)) (st : AState K F U)
        (cand : (K × U) × Nat) (k : K) (v : Option Int × List U),
      dget st.position_cache k = some v →
      dget (processCandidate api oracle color fens st cand).position_cache k
        = some v) ∧
    (∀ (fens : List ((K × U) × F)) (st : AState K F U)
        (cand : (K × U) × Nat) (k : K) (v : Option Int),
      dget st.after_cache k = some v →
      dget (processCandidate api oracle color fens st cand).after_cache k
        = some v) ∧
    ((∀ c ∈ candidatesOf (collect_move_pairs api color games).pair_counts,
        ∃ f b, dget (collect_move_pairs api color games).pair_fens c.1 =
            some f ∧ api.parseFen f = some b) →
      (analyzeLoop api oracle color
          (collect_move_pairs api color games).pair_fens
          (candidatesOf (collect_move_pairs api color
            games).pair_counts)).multiQueries.length =
      ((candidatesOf (collect_move_pairs api color games).pair_counts).map
          (fun c => c.1.1)).dedup.length) := by
  refine ⟨fun fens st cand k v hv =>
      processCandidate_pcache_mono api oracle color fens st cand k hv,
    fun fens st cand k v hv =>
      processCandidate_acache_mono api oracle color fens st cand k hv, ?_⟩
  intro hpre
  obtain ⟨hinvf, hmemf⟩ := foldl_inv api oracle color
    (collect_move_pairs api color games).pair_fens
    (candidatesOf (collect_move_pairs api color games).pair_counts)
    initAState hpre initAState_inv
  have hchar : ∀ k,
      k ∈ (analyzeLoop api oracle color
          (collect_move_pairs api color games).pair_fens
          (candidatesOf (collect_move_pairs api color
            games).pair_counts)).multiQueries ↔
      k ∈ ((candidatesOf (collect_move_pairs api color
          games).pair_counts).map (fun c => c.1.1)).dedup := by
    intro k
    rw [List.mem_dedup, List.mem_map]
    rw [analyzeLoop, hmemf k]
    simp only [initAState, List.not_mem_nil, false_or]
    constructor
    · rintro ⟨c, hc, rfl⟩; exact ⟨c, hc, rfl⟩
    · rintro ⟨c, hc, rfl⟩; exact ⟨c, hc, rfl⟩
  have hperm := (List.perm_ext_iff_of_nodup hinvf.1
    (List.nodup_dedup _)).mpr hchar
  exact hperm.length_eq

/-- Witness for C4: the two-game toy corpus has one candidate, one distinct
position key, and the loop issues exactly one multi-line query. -/
theorem C4_evaluation_cache_witness :
    (analyzeLoop wApi wOracle true
        (collect_move_pairs wApi true [wGame, wGame]).pair_fens
        (candidatesOf (collect_move_pairs wApi true
          [wGame, wGame]).pair_counts)).multiQueries.length =
      ((candidatesOf (collect_move_pairs wApi true
          [wGame, wGame]).pair_counts).map (fun c => c.1.1)).dedup.length :=
  (C4_evaluation_cache wApi wOracle true [wGame, wGame]).2.2 (by
    intro c hc
    have hl : candidatesOf (collect_move_pairs wApi true
        [wGame, wGame]).pair_counts = [((0, 5), 2)] := rfl
    rw [hl] at hc
    rw [List.mem_singleton] at hc
    subst hc
    exact ⟨0, 0, rfl, rfl⟩)

/-- Claim C5: a pair occurring strictly fewer than `MIN_PAIR_OCCURRENCES`
times is never selected, every emitted record has
`pair_count ≥ MIN_PAIR_OCCURRENCES`, and every multi-line oracle query
stems from a selected candidate (whose count meets the minimum) — so
sub-threshold pairs are never evaluated. -/
theorem C5_min_occurrences (api : ChessApi B M K F U) (oracle : Oracle B M)
    (senv : StartEnv E) (color : Bool) (games : List (B × List M)) :
    (∀ q ∈ (collect_move_pairs api color games).pair_counts,
      q.2 < MIN_PAIR_OCCURRENCES →
      q ∉ candidatesOf (collect_move_pairs api color games).pair_counts) ∧
    (∀ l, analyze_pgn api oracle senv color games = .ok l →
      ∀ r ∈ l, MIN_PAIR_OCCURRENCES ≤ r.pair_count) ∧
    (∀ k ∈ (analyzeLoop api oracle color
        (collect_move_pairs api color games).pair_fens
        (candidatesOf (collect_move_pairs api color
          games).pair_counts)).multiQueries,
      ∃ c ∈ candidatesOf (collect_move_pairs api color games).pair_counts,
        k = c.1.1 ∧ MIN_PAIR_OCCURRENCES ≤ c.2) := by
  refine ⟨?_, ?_, ?_⟩
  · intro q hq hlt hmem
    have hmf := ((sortDesc_perm natLt
      (fun c : (K × U) × Nat => c.2) _).mem_iff).mp hmem
    rw [List.mem_filter] at hmf
    have := of_decide_eq_true hmf.2
    omega
  · intro l hl r hr
    simp only [analyze_pgn] at hl
    split at hl
    · injection hl with h
      subst h
      simp at hr
    · split at hl
      · exact Except.noConfusion hl
      · injection hl with h
        subst h
        have hmem := ((sortDesc_perm pcLt recKey _).mem_iff).mp hr
        rcases foldl_mistakes_mem api oracle color _ _ initAState r hmem
          with h0 | ⟨c, hc, hcount, _, _⟩
        · simp [initAState] at h0
        · have hmf := ((sortDesc_perm natLt
            (fun c : (K × U) × Nat => c.2) _).mem_iff).mp hc
          rw [List.mem_filter] at hmf
          have := of_decide_eq_true hmf.2
          rw [hcount]
          exact this
  · intro k hk
    rcases foldl_multiQueries_mem api oracle color _ _ initAState k hk
      with h0 | ⟨c, hc, hkey⟩
    · simp [initAState] at h0
    · have hmf := ((sortDesc_perm natLt
        (fun c : (K × U) × Nat => c.2) _).mem_iff).mp hc
      rw [List.mem_filter] at hmf
      exact ⟨c, hc, hkey, of_decide_eq_true hmf.2⟩

/-- Witness for C5: the single-game toy corpus produces the pair
`((0,5), 1)`; with only one occurrence it is not selected. -/
theorem C5_min_occurrences_witness :
    ((0, 5), 1) ∉
      candidatesOf (collect_move_pairs wApi true [wGame]).pair_counts :=
  (C5_min_occurrences wApi wOracle okSenv true [wGame]).1
    ((0, 5), 1) (by decide) (by decide)

/-- Claim C6: the list returned by `analyze_pgn` is the stable descending
sort of the emitted records by `(pair_count, avg_cp_loss)`: it is sorted
(no earlier record has a strictly smaller key), it is a permutation of the
emitted records, and for every key value the records carrying it appear in
emission order. -/
theorem C6_stable_ranking (api : ChessApi B M K F U) (oracle : Oracle B M)
    (senv : StartEnv E) (color : Bool) (games : List (B × List M))
    (l : List (MistakeRecord F U))
    (h : analyze_pgn api oracle senv color games = .ok l) :
    l = sortDesc pcLt recKey (analyzeEmitted api oracle color games) ∧
    SortedDesc pcLt recKey l ∧
    (∀ kp : Nat × Int,
      l.filter (fun r => decide (recKey r = kp)) =
        (analyzeEmitted api oracle color games).filter
          (fun r => decide (recKey r = kp))) ∧
    List.Perm l (analyzeEmitted api oracle color games) := by
  simp only [analyze_pgn] at h
  split at h
  next hempty =>
    injection h with h'
    subst h'
    have hnil : candidatesOf (collect_move_pairs api color
        games).pair_counts = [] := by
      simpa using hempty
    have hemit : analyzeEmitted api oracle color games = [] := by
      simp only [analyzeEmitted]
      rw [hnil]
      rfl
    rw [hemit]
    exact ⟨rfl, List.Pairwise.nil, fun kp => rfl, List.Perm.refl _⟩
  next hempty =>
    split at h
    next msg hstart => exact Except.noConfusion h
    next eng hstart =>
      injection h with h'
      subst h'
      refine ⟨rfl, ?_, ?_, ?_⟩
      · exact sortDesc_sorted pcLt recKey pcLt_trans pcLt_asymm _
      · intro kp
        exact sortDesc_filter pcLt recKey pcLt_trans pcLt_asymm
          pcLt_irrefl _ kp
      · exact sortDesc_perm pcLt recKey _

/-- Witness for C6: the concrete run's output is sorted. -/
theorem C6_stable_ranking_witness :
    SortedDesc pcLt recKey
      [(⟨0, 5, [9], 150, 2, true⟩ : MistakeRecord Nat Nat)] := by
  have h : analyze_pgn wApi wOracle okSenv true [wGame, wGame] =
      .ok [(⟨0, 5, [9], 150, 2, true⟩ : MistakeRecord Nat Nat)] := rfl
  exact (C6_stable_ranking wApi wOracle okSenv true [wGame, wGame]
    [⟨0, 5, [9], 150, 2, true⟩] h).2.1

/-- Claim C8: when the oracle cannot be started at the beginning of a run
that has candidates to evaluate, `analyze_pgn` propagates the startup
failure: the background task writes the non-empty reason to the error
file, writes no analysis results, clears the processing flag, and the run
ends in the failed state. -/
theorem C8_oracle_unavailable (api : ChessApi B M K F U)
    (oracle : Oracle B M) (senv : StartEnv E) (color : Bool)
    (games : List (B × List M))
    (hcands : (candidatesOf (collect_move_pairs api color
      games).pair_counts).isEmpty = false)
    (hfail : ∀ p, senv.tryPopen p = none) :
    ∃ reason,
      analyze_pgn api oracle senv color games =
        (.error reason : Except String (List (MistakeRecord F U))) ∧
      reason ≠ "" ∧
      analyze_async_task (analyze_pgn api oracle senv color games) =
        ⟨none, some reason, true⟩ ∧
      runStateOf (analyze_async_task
        (analyze_pgn api oracle senv color games)) = .failed ∧
      (analyze_async_task
        (analyze_pgn api oracle senv color games)).analysisWrite = none := by
  obtain ⟨msg, hstart, hne⟩ := start_stockfish_error_msg senv hfail
  have hrun : analyze_pgn api oracle senv color games =
      (.error msg : Except String (List (MistakeRecord F U))) := by
    simp only [analyze_pgn, hcands, Bool.false_eq_true, if_false, hstart]
  refine ⟨msg, hrun, hne, ?_, ?_, ?_⟩
  · rw [hrun]; rfl
  · rw [hrun]; rfl
  · rw [hrun]; rfl

/-- Witness for C8: the toy corpus with a start environment whose engine
binaries all fail to launch. -/
theorem C8_oracle_unavailable_witness :
    ∃ reason,
      analyze_pgn wApi wOracle failSenv true [wGame, wGame] =
        (.error reason : Except String (List (MistakeRecord Nat Nat))) ∧
      reason ≠ "" ∧
      analyze_async_task (analyze_pgn wApi wOracle failSenv true
        [wGame, wGame]) = ⟨none, some reason, true⟩ ∧
      runStateOf (analyze_async_task
        (analyze_pgn wApi wOracle failSenv true [wGame, wGame])) =
        .failed ∧
      (analyze_async_task
        (analyze_pgn wApi wOracle failSenv true
          [wGame, wGame])).analysisWrite = none :=
  C8_oracle_unavailable wApi wOracle failSenv true [wGame, wGame]
    rfl (fun p => rfl)

end Claims

end ChessAnalyzer
